import Mathlib

/-!
Verification of the crawler's core behaviour against its specification.

The development shallowly embeds the pure decision logic of `src/tool.py` and
`src/util.py`.  External collaborators (the renderer, the HTTP client, Python's
`urllib.parse` functions) are passed in as explicit function or data arguments:
a network fetch becomes an `Except String`-valued input, a rendered page's
anchor set becomes a list argument, and `urljoin` / `urlparse(...).netloc`
become function parameters.  Python string operations used by the code
(`split("#")[0]`, `.lower()`, `.strip()`, substring `in`) are re-implemented
over `List Char` so that all definitions compute by kernel reduction.
-/

/-- Python `c in s` for single-separator prefix logic: the part of `s` before
the first occurrence of character `c`, i.e. `s.split(c)[0]`. -/
def stripAfter (c : Char) (s : String) : String :=
  String.mk (s.data.takeWhile (fun x => x ≠ c))

/-- Python `s.lower()` (ASCII view, via `Char.toLower`). -/
def lowerStr (s : String) : String :=
  String.mk (s.data.map Char.toLower)

/-- Whitespace test used by Python `str.strip()`. -/
def isSpaceChar (c : Char) : Bool :=
  c == ' ' || c == '\t' || c == '\n' || c == '\r'

/-- Python `s.strip()`. -/
def trimStr (s : String) : String :=
  String.mk (((s.data.dropWhile isSpaceChar).reverse.dropWhile isSpaceChar).reverse)

/-- Contiguous-sublist test on character lists. -/
def isInfixOfList (pat : List Char) : List Char → Bool
  | [] => pat.isEmpty
  | c :: rest => pat.isPrefixOf (c :: rest) || isInfixOfList pat rest

/-- Python substring test `pat in hay`. -/
def strContains (hay pat : String) : Bool :=
  isInfixOfList pat.data hay.data

/-- Python `s.startswith(p)`. -/
def strStartsWith (s p : String) : Bool :=
  p.data.isPrefixOf s.data

/-- Host extraction in the style of `urlparse(u).netloc`: the text between the
first `://` and the following `/`.  Used only to instantiate the `netloc`
oracle parameter at concrete witness inputs. -/
def afterScheme : List Char → List Char
  | [] => []
  | ':' :: '/' :: '/' :: rest => rest
  | _ :: rest => afterScheme rest

/-- Concrete `netloc` function for witnesses and counterexamples. -/
def simpleNetloc (s : String) : String :=
  String.mk ((afterScheme s.data).takeWhile (fun c => c ≠ '/'))

/-! ## Link scorer: `discover_links` (src/tool.py lines 110-211)

An anchor is modelled as the pair of its `href` attribute (`none` when the
attribute is missing, mirroring `get_attribute` returning `None`) and its raw
inner text.  `urljoin` and `urlparse(...).netloc` are the function parameters
`uj` and `nl`. -/

structure LinkCandidate where
  url : String
  text : String
  score : Nat
  matchTags : List String
deriving DecidableEq, Repr

/-- Body of the keyword loop of `discover_links` (lines 184-191): one keyword
step over the running `(score, matches)` accumulator. -/
def scoreStep (full_url text : String) (acc : Nat × List String) (kw : String) :
    Nat × List String :=
  let kl := lowerStr kw
  let acc1 :=
    if strContains (lowerStr full_url) kl then
      (acc.1 + 5, acc.2 ++ ["url:" ++ kw])
    else acc
  if strContains (lowerStr text) kl then
    (acc1.1 + 10, acc1.2 ++ ["text:" ++ kw])
  else acc1

/-- Per-anchor keyword loop of `discover_links` (lines 180-191): for each
keyword, a case-insensitive substring match in the full URL adds 5 points and
a `url:<kw>` tag, then a match in the anchor text adds 10 points and a
`text:<kw>` tag. -/
def keywordScore (full_url text : String) (keywords : List String) : Nat × List String :=
  keywords.foldl (scoreStep full_url text) (0, [])

/-- Anchor processing loop of `discover_links` (lines 161-201): skip falsy
hrefs, resolve against the page URL, apply the scope filter, score, and keep
only candidates with positive score, in encounter order. -/
def processAnchors (uj : String → String → String) (nl : String → String)
    (url : String) (keywords : List String) (scope : String)
    (anchors : List (Option String × String)) : List LinkCandidate :=
  let start_domain := nl url
  anchors.filterMap (fun a =>
    match a.1 with
    | none => none
    | some href =>
      if href = "" then none
      else
        let full_url := uj url href
        let text := trimStr a.2
        if scope = "domain" ∧ ¬ strContains (nl full_url) start_domain then none
        else if scope = "subdomain" ∧ nl full_url ≠ start_domain then none
        else
          let sm := keywordScore full_url text keywords
          if 0 < sm.1 then some ⟨full_url, text, sm.1, sm.2⟩ else none)

/-- Stable descending insertion by score: the new element goes after every
strictly greater element and before every equal-or-smaller one. -/
def insertDesc (c : LinkCandidate) : List LinkCandidate → List LinkCandidate
  | [] => [c]
  | x :: xs => if c.score < x.score then x :: insertDesc c xs else c :: x :: xs

/-- Stable sort, descending by score: the extensional behaviour of Python's
`sorted(l, key=score, reverse=True)` (line 211), which is specified stable. -/
def sortDesc : List LinkCandidate → List LinkCandidate
  | [] => []
  | x :: xs => insertDesc x (sortDesc xs)

/-- Shallow embedding of `discover_links` (src/tool.py lines 110-211). -/
def discover_links (uj : String → String → String) (nl : String → String)
    (url : String) (keywords : List String) (scope : String)
    (anchors : List (Option String × String)) : List LinkCandidate :=
  sortDesc (processAnchors uj nl url keywords scope anchors)

/-! ## Spec-side description of the scorer (for the refinement claims C5/C6) -/

/-- Case-insensitive keyword hit in the resolved URL, as the spec words it. -/
def urlHit (u kw : String) : Bool :=
  strContains (lowerStr u) (lowerStr kw)

/-- Case-insensitive keyword hit in the anchor text, as the spec words it. -/
def textHit (t kw : String) : Bool :=
  strContains (lowerStr t) (lowerStr kw)

/-- Modelled from the spec's words: additive total score, 5 per URL hit and
10 per text hit, summed over the keywords. -/
def specScore (keywords : List String) (u t : String) : Nat :=
  (keywords.map (fun kw =>
    (if urlHit u kw then 5 else 0) + (if textHit t kw then 10 else 0))).sum

/-- Modelled from the spec's words: the match tags, a `url:<kw>` tag then a
`text:<kw>` tag per matching keyword, in keyword order. -/
def specMatches (keywords : List String) (u t : String) : List String :=
  (keywords.map (fun kw =>
    (if urlHit u kw then ["url:" ++ kw] else []) ++
    (if textHit t kw then ["text:" ++ kw] else []))).flatten

theorem keywordScore_go (u t : String) (kws : List String) (n : Nat) (ms : List String) :
    kws.foldl (scoreStep u t) (n, ms) = (n + specScore kws u t, ms ++ specMatches kws u t) := by
  induction kws generalizing n ms with
  | nil => simp [specScore, specMatches]
  | cons kw rest ih =>
    simp only [List.foldl_cons]
    by_cases hu : urlHit u kw <;> by_cases ht : textHit t kw <;>
      simp only [scoreStep, urlHit, textHit] at hu ht ⊢ <;>
      simp [hu, ht, ih, specScore, specMatches, urlHit, textHit] <;> omega

/-- The source's accumulator loop computes exactly the spec's additive score
and ordered tag list. -/
theorem keywordScore_eq (u t : String) (kws : List String) :
    keywordScore u t kws = (specScore kws u t, specMatches kws u t) := by
  simpa using keywordScore_go u t kws 0 []

theorem insertDesc_perm (c : LinkCandidate) (l : List LinkCandidate) :
    List.Perm (insertDesc c l) (c :: l) := by
  induction l with
  | nil => simp [insertDesc]
  | cons x xs ih =>
    simp only [insertDesc]
    split
    · exact ((ih.cons x).trans (List.Perm.swap c x xs))
    · exact List.Perm.refl _

theorem sortDesc_perm (l : List LinkCandidate) : List.Perm (sortDesc l) l := by
  induction l with
  | nil => simp [sortDesc]
  | cons x xs ih => exact (insertDesc_perm x (sortDesc xs)).trans (ih.cons x)

theorem mem_sortDesc {c : LinkCandidate} {l : List LinkCandidate} :
    c ∈ sortDesc l ↔ c ∈ l :=
  (sortDesc_perm l).mem_iff

theorem pairwise_insertDesc {c : LinkCandidate} {l : List LinkCandidate}
    (hl : l.Pairwise (fun a b => b.score ≤ a.score)) :
    (insertDesc c l).Pairwise (fun a b => b.score ≤ a.score) := by
  induction l with
  | nil => simp [insertDesc]
  | cons x xs ih =>
    rcases List.pairwise_cons.mp hl with ⟨hx, hxs⟩
    simp only [insertDesc]
    split
    · rename_i hcx
      refine List.pairwise_cons.mpr ⟨?_, ih hxs⟩
      intro y hy
      rcases List.mem_cons.mp ((insertDesc_perm c xs).mem_iff.mp hy) with hy' | hy'
      · subst hy'; omega
      · exact hx y hy'
    · rename_i hcx
      push_neg at hcx
      refine List.pairwise_cons.mpr ⟨?_, hl⟩
      intro y hy
      rcases List.mem_cons.mp hy with hy | hy
      · subst hy; omega
      · exact le_trans (hx y hy) hcx

theorem sortDesc_pairwise (l : List LinkCandidate) :
    (sortDesc l).Pairwise (fun a b => b.score ≤ a.score) := by
  induction l with
  | nil => simp [sortDesc]
  | cons x xs ih => exact pairwise_insertDesc ih

theorem filter_insertDesc (s : Nat) (c : LinkCandidate) (l : List LinkCandidate) :
    (insertDesc c l).filter (fun x => x.score == s) =
      (if c.score = s then [c] else []) ++ l.filter (fun x => x.score == s) := by
  induction l with
  | nil => simp [insertDesc, List.filter]; split <;> simp_all
  | cons x xs ih =>
    simp only [insertDesc]
    split
    · rename_i hcx
      rw [List.filter_cons, ih, List.filter_cons]
      by_cases hc : c.score = s <;> by_cases hx : x.score = s <;>
        simp_all
    · rw [List.filter_cons]
      by_cases hc : c.score = s <;> simp [hc]

theorem filter_sortDesc (s : Nat) (l : List LinkCandidate) :
    (sortDesc l).filter (fun x => x.score == s) = l.filter (fun x => x.score == s) := by
  induction l with
  | nil => simp [sortDesc]
  | cons x xs ih =>
    simp only [sortDesc]
    rw [filter_insertDesc, ih, List.filter_cons]
    by_cases hx : x.score = s <;> simp [hx]

/-- Membership in the pre-sort candidate list pins down where a candidate came
from and how its fields were computed. -/
theorem mem_processAnchors {uj : String → String → String} {nl : String → String}
    {url : String} {kws : List String} {scope : String}
    {anchors : List (Option String × String)} {c : LinkCandidate}
    (hc : c ∈ processAnchors uj nl url kws scope anchors) :
    ∃ a ∈ anchors, ∃ h, a.1 = some h ∧ h ≠ "" ∧ c.url = uj url h ∧
      c.text = trimStr a.2 ∧
      c.score = (keywordScore c.url c.text kws).1 ∧
      c.matchTags = (keywordScore c.url c.text kws).2 ∧ 0 < c.score := by
  simp only [processAnchors, List.mem_filterMap] at hc
  obtain ⟨a, ha, hfa⟩ := hc
  refine ⟨a, ha, ?_⟩
  rcases a with ⟨ho, txt⟩
  rcases ho with _ | h
  · simp at hfa
  · refine ⟨h, rfl, ?_⟩
    simp only at hfa
    split_ifs at hfa with h1 h2 h3 h4 <;> simp_all
    subst hfa
    simp_all

/-- Concrete `urljoin` oracle for witnesses: resolution when the href is
already an absolute URL (urljoin returns it unchanged). -/
def urljoinAbs (_u href : String) : String := href

/-- C5: in `discover_links`, each keyword tested case-insensitively
contributes 5 points and a `url:<kw>` tag on a URL match and 10 points and a
`text:<kw>` tag on a text match, additively over keywords in order; any
candidate with zero total score is excluded; and the returned list is sorted
descending by total score with equal-score candidates retaining encounter
order (per-score filters agree with the pre-sort candidate list). -/
theorem C5_scorer (uj : String → String → String) (nl : String → String)
    (url : String) (kws : List String) (scope : String)
    (anchors : List (Option String × String)) :
    (∀ c ∈ discover_links uj nl url kws scope anchors,
        c.score = specScore kws c.url c.text ∧
        c.matchTags = specMatches kws c.url c.text ∧ 0 < c.score) ∧
    (discover_links uj nl url kws scope anchors).Pairwise
      (fun a b => b.score ≤ a.score) ∧
    (∀ s : Nat,
      (discover_links uj nl url kws scope anchors).filter (fun c => c.score == s) =
      (processAnchors uj nl url kws scope anchors).filter (fun c => c.score == s)) := by
  refine ⟨?_, sortDesc_pairwise _, fun s => filter_sortDesc s _⟩
  intro c hc
  obtain ⟨a, _, h, _, _, _, _, hsc, hmt, hpos⟩ :=
    mem_processAnchors (mem_sortDesc.mp hc)
  rw [keywordScore_eq] at hsc hmt
  exact ⟨by rw [hsc], by rw [hmt], hpos⟩

/-- Witness for C5 at a concrete page: the spec's own example anchor. -/
theorem C5_witness :
    (LinkCandidate.mk "http://x.com/api" "API Reference" 15 ["url:api", "text:api"]).score =
      specScore ["api"]
        (LinkCandidate.mk "http://x.com/api" "API Reference" 15 ["url:api", "text:api"]).url
        (LinkCandidate.mk "http://x.com/api" "API Reference" 15 ["url:api", "text:api"]).text :=
  ((C5_scorer urljoinAbs simpleNetloc "http://x.com" ["api"] "domain"
      [(some "http://x.com/api", "API Reference")]).1
    (LinkCandidate.mk "http://x.com/api" "API Reference" 15 ["url:api", "text:api"])
    (by decide)).1

/-- C6 counterexample: an anchor whose trimmed text is empty does contribute
a record when its URL matches a keyword (`if not href` is the only filter in
src/tool.py lines 166-167; there is no text check), refuting the claim that
empty-trimmed-text anchors never contribute. -/
theorem C6_counterexample :
    discover_links urljoinAbs simpleNetloc "http://x.com" ["api"] "domain"
      [(some "http://x.com/api", "")] =
      [LinkCandidate.mk "http://x.com/api" "" 5 ["url:api"]] ∧
    trimStr "" = "" ∧
    (LinkCandidate.mk "http://x.com/api" "" 5 ["url:api"]).text = "" := by
  exact ⟨by decide, by decide, by decide⟩

/-- C6 (amended): every candidate record returned by `discover_links`
originates from an anchor whose href attribute is present and non-empty (the
record's url is that href resolved, its text the anchor's trimmed text); the
trimmed text itself may be empty, since the code filters only falsy hrefs. -/
theorem C6_amended_candidate_origin (uj : String → String → String)
    (nl : String → String) (url : String) (kws : List String) (scope : String)
    (anchors : List (Option String × String)) :
    ∀ c ∈ discover_links uj nl url kws scope anchors,
      ∃ a ∈ anchors, ∃ h, a.1 = some h ∧ h ≠ "" ∧
        c.url = uj url h ∧ c.text = trimStr a.2 := by
  intro c hc
  obtain ⟨a, ha, h, h1, h2, h3, h4, _⟩ := mem_processAnchors (mem_sortDesc.mp hc)
  exact ⟨a, ha, h, h1, h2, h3, h4⟩

/-- Witness for the amended C6 at a concrete page. -/
theorem C6_witness :
    ∃ a ∈ [((some "http://x.com/api" : Option String), "hi")], ∃ h,
      a.1 = some h ∧ h ≠ "" ∧
      (LinkCandidate.mk "http://x.com/api" "hi" 5 ["url:api"]).url =
        urljoinAbs "http://x.com" h ∧
      (LinkCandidate.mk "http://x.com/api" "hi" 5 ["url:api"]).text = trimStr a.2 :=
  C6_amended_candidate_origin urljoinAbs simpleNetloc "http://x.com" ["api"] "domain"
    [(some "http://x.com/api", "hi")]
    (LinkCandidate.mk "http://x.com/api" "hi" 5 ["url:api"]) (by decide)

/-- C10: `discover_links` does not deduplicate candidates by URL — two
distinct anchors resolving to the same absolute URL, each matching a keyword,
yield two records with the same url value, in encounter order. -/
theorem C10_no_dedup :
    discover_links urljoinAbs simpleNetloc "http://x.com" ["api"] "domain"
      [(some "http://x.com/api", "aaa"), (some "http://x.com/api", "bbb")] =
      [LinkCandidate.mk "http://x.com/api" "aaa" 5 ["url:api"],
       LinkCandidate.mk "http://x.com/api" "bbb" 5 ["url:api"]] ∧
    (LinkCandidate.mk "http://x.com/api" "aaa" 5 ["url:api"]).url =
      (LinkCandidate.mk "http://x.com/api" "bbb" 5 ["url:api"]).url := by
  exact ⟨by decide, by decide⟩

/-! ## Content pipeline: `extract_content` (src/tool.py lines 355-462)

Each awaited collaborator call inside the `try` blocks is modelled as an
`Except String`-valued input (`.error msg` standing for a raised exception
with message `msg`).  `head` is the probe's `Content-Type` header value;
`jsonBody` is the pretty-printed `json.dumps(resp.json(), indent=2)` output
of the follow-up GET (`.error` covering a failure anywhere in that branch,
which the enclosing `except ... pass` turns into a fall-through to the HTML
path).  The boilerplate stripper and markdown converter are the total
functions `clean` and `conv` (the repo's `clean_html` never raises and the
spec declares `convert_to_markdown` total).  `page.url` is a plain property
access and cannot raise, so it is a plain `String` field. -/

structure RenderIn where
  goto : Except String Unit
  clicks : List (Except String Unit)
  scroll : Except String Unit
  shot : Except String String
  content : Except String String
  title : Except String String
  pageUrl : String

structure ExtractMeta where
  ctype : Option String
  title : Option String
  url : Option String
deriving DecidableEq, Repr

structure ExtractResult where
  markdown : Option String
  screenshot : Option String
  metadata : ExtractMeta
  error : Option String
deriving DecidableEq, Repr

/-- Probe branch of `extract_content` (lines 407-425): HEAD for the content
type; `application/pdf` gives the fixed placeholder, `application/json` gives
the fenced pretty-printed body; everything else (probe failures included)
falls through (`none`) to the render path. -/
def probePhase (head : Except String String) (jsonBody : Except String String) :
    Option ExtractResult :=
  match head with
  | .error _ => none
  | .ok rawCt =>
    let ct := lowerStr rawCt
    if strContains ct "application/pdf" then
      some ⟨some "[PDF Content - Extraction not implemented yet]", none,
        ⟨some "pdf", none, none⟩, none⟩
    else if strContains ct "application/json" then
      match jsonBody with
      | .error _ => none
      | .ok s => some ⟨some ("```json\n" ++ s ++ "\n```"), none,
          ⟨some "json", none, none⟩, none⟩
    else none

/-- Render path of `extract_content` (lines 427-462): goto, the swallowed
click loop, auto-scroll, optional screenshot, content capture, markdown
assignment, then title and final-URL reads.  The first non-swallowed
exception jumps to the `except` clause which only sets `error`, leaving the
fields assigned so far in place. -/
def renderPhase (wantShot : Bool) (clean conv : String → String) (r : RenderIn) :
    ExtractResult :=
  match r.goto with
  | .error e => ⟨none, none, ⟨none, none, none⟩, some e⟩
  | .ok _ =>
    match r.scroll with
    | .error e => ⟨none, none, ⟨none, none, none⟩, some e⟩
    | .ok _ =>
      match (if wantShot then (r.shot.map some) else .ok none :
          Except String (Option String)) with
      | .error e => ⟨none, none, ⟨none, none, none⟩, some e⟩
      | .ok shotVal =>
        match r.content with
        | .error e => ⟨none, shotVal, ⟨none, none, none⟩, some e⟩
        | .ok html =>
          let mdown := conv (clean html)
          match r.title with
          | .error e => ⟨some mdown, shotVal, ⟨none, none, none⟩, some e⟩
          | .ok t => ⟨some mdown, shotVal, ⟨none, some t, some r.pageUrl⟩, none⟩

/-- Shallow embedding of `extract_content` (src/tool.py lines 355-462). -/
def extract_content (wantShot : Bool) (head jsonBody : Except String String)
    (clean conv : String → String) (r : RenderIn) : ExtractResult :=
  match probePhase head jsonBody with
  | some res => res
  | none => renderPhase wantShot clean conv r

theorem probePhase_some {head jsonBody : Except String String} {res : ExtractResult}
    (h : probePhase head jsonBody = some res) :
    res.markdown ≠ none ∧ res.error = none := by
  unfold probePhase at h
  rcases head with e | ct
  · simp at h
  · simp only at h
    split_ifs at h with h1 h2
    · cases h; simp
    · rcases jsonBody with e2 | s
      · simp at h
      · cases h; simp

theorem renderPhase_populated (wantShot : Bool) (clean conv : String → String)
    (r : RenderIn) :
    ((renderPhase wantShot clean conv r).markdown ≠ none ∨
      (renderPhase wantShot clean conv r).error ≠ none) ∧
    ((renderPhase wantShot clean conv r).markdown ≠ none ∧
        (renderPhase wantShot clean conv r).error ≠ none →
      ∃ html e, r.content = Except.ok html ∧ r.title = Except.error e ∧
        (renderPhase wantShot clean conv r).markdown = some (conv (clean html)) ∧
        (renderPhase wantShot clean conv r).error = some e) := by
  rcases r with ⟨g, cl, sc, sh, co, ti, pu⟩
  rcases g with e | u <;> rcases sc with e2 | u2 <;> cases wantShot <;>
    rcases sh with e3 | h3 <;> rcases co with e4 | html <;> rcases ti with e5 | t5
  all_goals simp [renderPhase, Except.map]

/-- C1 counterexample: when the title read raises after the markdown has been
assigned (src/tool.py line 453 precedes line 454), the `except` clause sets
`error` while `markdown` stays populated — both fields are set, refuting the
claimed exclusivity. -/
theorem C1_counterexample :
    extract_content false (Except.error "probe failed") (Except.error "no body")
        id id ⟨Except.ok (), [], Except.ok (), Except.ok "", Except.ok "<p>hi</p>",
          Except.error "boom", "http://a.com"⟩ =
      ⟨some "<p>hi</p>", none, ⟨none, none, none⟩, some "boom"⟩ ∧
    (some "<p>hi</p>" ≠ (none : Option String)) ∧
    (some "boom" ≠ (none : Option String)) := by
  exact ⟨rfl, by decide, by decide⟩

/-- C1 (amended): at the terminal state of `extract_content` at least one of
markdown and error is populated, and on success exactly markdown is; the two
can both be populated only when the exception is raised by the final
title read after the markdown assignment, in which case the error field
carries that exception's message next to the already-assigned markdown. -/
theorem C1_amended_exclusivity (wantShot : Bool)
    (head jsonBody : Except String String) (clean conv : String → String)
    (r : RenderIn) :
    ((extract_content wantShot head jsonBody clean conv r).markdown ≠ none ∨
      (extract_content wantShot head jsonBody clean conv r).error ≠ none) ∧
    ((extract_content wantShot head jsonBody clean conv r).markdown ≠ none ∧
        (extract_content wantShot head jsonBody clean conv r).error ≠ none →
      ∃ html e, r.content = Except.ok html ∧ r.title = Except.error e ∧
        (extract_content wantShot head jsonBody clean conv r).markdown =
          some (conv (clean html)) ∧
        (extract_content wantShot head jsonBody clean conv r).error = some e) := by
  cases hp : probePhase head jsonBody with
  | some res =>
    have hres := probePhase_some hp
    constructor
    · left
      simpa [extract_content, hp] using hres.1
    · intro hboth
      exfalso
      have h2 := hboth.2
      simp [extract_content, hp, hres.2] at h2
  | none =>
    have h1 := renderPhase_populated wantShot clean conv r
    simpa [extract_content, hp] using h1

/-- Witness for the amended C1 on a fully successful extraction. -/
theorem C1_witness :
    (extract_content false (Except.error "x") (Except.error "y") id id
        ⟨Except.ok (), [], Except.ok (), Except.ok "", Except.ok "<p>a</p>",
          Except.ok "T", "http://a.com"⟩).markdown ≠ none ∨
    (extract_content false (Except.error "x") (Except.error "y") id id
        ⟨Except.ok (), [], Except.ok (), Except.ok "", Except.ok "<p>a</p>",
          Except.ok "T", "http://a.com"⟩).error ≠ none :=
  (C1_amended_exclusivity false (Except.error "x") (Except.error "y") id id
    ⟨Except.ok (), [], Except.ok (), Except.ok "", Except.ok "<p>a</p>",
      Except.ok "T", "http://a.com"⟩).1

/-- C4: a probe reporting `application/json` makes `extract_content` return
the pretty-printed body in a fenced json code block with metadata type
"json", and a probe reporting `application/pdf` makes it return the fixed
placeholder with metadata type "pdf"; in both cases the result is a constant
independent of every renderer input, so the renderer is never consulted. -/
theorem C4_content_type_branching (ct s : String) (wantShot : Bool)
    (jsonBody : Except String String) (clean conv : String → String)
    (r : RenderIn) :
    (strContains (lowerStr ct) "application/json" = true →
      strContains (lowerStr ct) "application/pdf" = false →
      jsonBody = Except.ok s →
      extract_content wantShot (Except.ok ct) jsonBody clean conv r =
        ⟨some ("```json\n" ++ s ++ "\n```"), none, ⟨some "json", none, none⟩, none⟩) ∧
    (strContains (lowerStr ct) "application/pdf" = true →
      extract_content wantShot (Except.ok ct) jsonBody clean conv r =
        ⟨some "[PDF Content - Extraction not implemented yet]", none,
          ⟨some "pdf", none, none⟩, none⟩) := by
  constructor
  · intro hj hp hb
    subst hb
    simp [extract_content, probePhase, hj, hp]
  · intro hp
    simp [extract_content, probePhase, hp]

/-- Witness for C4 at concrete content types and body. -/
theorem C4_witness :
    extract_content false (Except.ok "application/json; charset=utf-8")
        (Except.ok "[1, 2]") id id
        ⟨Except.ok (), [], Except.ok (), Except.ok "", Except.ok "x",
          Except.ok "T", "u"⟩ =
      ⟨some ("```json\n" ++ "[1, 2]" ++ "\n```"), none,
        ⟨some "json", none, none⟩, none⟩ ∧
    extract_content true (Except.ok "Application/PDF") (Except.error "z") id id
        ⟨Except.ok (), [], Except.ok (), Except.ok "", Except.ok "x",
          Except.ok "T", "u"⟩ =
      ⟨some "[PDF Content - Extraction not implemented yet]", none,
        ⟨some "pdf", none, none⟩, none⟩ :=
  ⟨(C4_content_type_branching "application/json; charset=utf-8" "[1, 2]" false
      (Except.ok "[1, 2]") id id
      ⟨Except.ok (), [], Except.ok (), Except.ok "", Except.ok "x",
        Except.ok "T", "u"⟩).1 (by decide) (by decide) rfl,
   (C4_content_type_branching "Application/PDF" "" true (Except.error "z") id id
      ⟨Except.ok (), [], Except.ok (), Except.ok "", Except.ok "x",
        Except.ok "T", "u"⟩).2 (by decide)⟩

/-! ## Politeness gate: `is_allowed_by_robots` (src/util.py lines 167-193)

The GET of robots.txt is the `Except`-valued input `fetch` (status code and
body text on success).  `RobotFileParser.parse` plus `can_fetch` are the
oracle `ruleEval`, returning `none` when parsing or rule evaluation raises
(swallowed by the inner `except` clause, which returns True). -/

def is_allowed_by_robots (fetch : Except String (Nat × String))
    (ruleEval : String → String → String → Option Bool)
    (user_agent url : String) : Bool :=
  match fetch with
  | .error _ => true
  | .ok st =>
    if st.1 = 200 then
      match ruleEval st.2 user_agent url with
      | none => true
      | some b => b
    else true

/-- C8: `is_allowed_by_robots` fails open — a fetch exception, a non-200
status, or an exception in parse/evaluation all yield `true`; a `false`
answer is only possible when robots.txt came back with status 200 and its
parsed rules denied the URL. -/
theorem C8_fail_open (fetch : Except String (Nat × String))
    (ruleEval : String → String → String → Option Bool) (ua url : String) :
    (∀ e, fetch = Except.error e →
      is_allowed_by_robots fetch ruleEval ua url = true) ∧
    (∀ st, fetch = Except.ok st → st.1 ≠ 200 →
      is_allowed_by_robots fetch ruleEval ua url = true) ∧
    (∀ st, fetch = Except.ok st → ruleEval st.2 ua url = none →
      is_allowed_by_robots fetch ruleEval ua url = true) ∧
    (is_allowed_by_robots fetch ruleEval ua url = false →
      ∃ body, fetch = Except.ok (200, body) ∧ ruleEval body ua url = some false) := by
  refine ⟨?_, ?_, ?_, ?_⟩
  · intro e he
    subst he
    rfl
  · intro st hst hne
    subst hst
    simp [is_allowed_by_robots, hne]
  · intro st hst hnone
    subst hst
    simp [is_allowed_by_robots, hnone]
  · intro hfalse
    rcases fetch with e | st
    · simp [is_allowed_by_robots] at hfalse
    · rcases st with ⟨code, body⟩
      by_cases hc : code = 200
      · subst hc
        cases hr : ruleEval body ua url with
        | none => simp [is_allowed_by_robots, hr] at hfalse
        | some b =>
          cases b
          · exact ⟨body, rfl, hr⟩
          · simp [is_allowed_by_robots, hr] at hfalse
      · simp [is_allowed_by_robots, hc] at hfalse

/-- Witness for C8: a timed-out fetch is allowed, and a denying rule set at
status 200 is the only way to get a denial. -/
theorem C8_witness :
    is_allowed_by_robots (Except.error "timeout") (fun _ _ _ => some false)
      "*" "http://a.com/x" = true :=
  (C8_fail_open (Except.error "timeout") (fun _ _ _ => some false)
    "*" "http://a.com/x").1 "timeout" rfl

/-! ## Sitemap resolver: `get_sitemap_urls` (src/util.py lines 66-138)

A fetched sitemap document is either a `sitemapindex` (its child
`<sitemap><loc>` texts) or a `urlset` (its `<url><loc>` texts); `fetchDoc`
maps a sitemap URL to `none` for a network exception, or the status code and
the XML parse outcome (`none` standing for `ET.ParseError`).  The robots.txt
probe that seeds the candidate list is the input `robots`. -/

inductive SitemapDoc where
  | index (children : List String)
  | urlset (locs : List String)

/-- Sitemap candidate discovery (lines 76-89): `Sitemap:` lines of a
status-200 robots.txt, falling back to `{origin}/sitemap.xml`. -/
def sitemapCandidates (base_url : String) (robots : Option (Nat × List String)) :
    List String :=
  let fromRobots :=
    match robots with
    | none => []
    | some st =>
      if st.1 = 200 then
        (st.2.filterMap (fun line =>
          if strStartsWith (lowerStr line) "sitemap:" then
            some (trimStr (String.mk ((line.data.dropWhile (fun c => c ≠ ':')).drop 1)))
          else none))
      else []
  if fromRobots = [] then [base_url ++ "/sitemap.xml"] else fromRobots

/-- Per-candidate processing (lines 91-136): fetch, parse, then either walk
one level of sitemap-index children (each child fetched and read as a urlset;
an index child exposes no `<url>` tags) or read the urlset directly, keeping
only `<loc>` values whose host equals `allowed_domain`. -/
def processCandidate (nl : String → String) (allowed_domain : String)
    (fetchDoc : String → Option (Nat × Option SitemapDoc)) (sm : String) :
    List String :=
  match fetchDoc sm with
  | none => []
  | some st =>
    if st.1 = 200 then
      match st.2 with
      | none => []
      | some (.index children) =>
        children.flatMap (fun c =>
          match fetchDoc c with
          | none => []
          | some st2 =>
            if st2.1 = 200 then
              match st2.2 with
              | some (.urlset locs) => locs.filter (fun l => nl l = allowed_domain)
              | _ => []
            else [])
      | some (.urlset locs) => locs.filter (fun l => nl l = allowed_domain)
    else []

/-- Shallow embedding of `get_sitemap_urls` (src/util.py lines 66-138). -/
def get_sitemap_urls (nl : String → String) (base_url allowed_domain : String)
    (robots : Option (Nat × List String))
    (fetchDoc : String → Option (Nat × Option SitemapDoc)) : List String :=
  (sitemapCandidates base_url robots).flatMap
    (processCandidate nl allowed_domain fetchDoc)

/-- C9: every URL returned by `get_sitemap_urls` has host exactly equal to
`allowed_domain`, whether collected from a urlset directly or through one
level of sitemap-index recursion; a `<loc>` on any other host never enters
the result. -/
theorem C9_sitemap_host_filter (nl : String → String)
    (base_url allowed_domain : String) (robots : Option (Nat × List String))
    (fetchDoc : String → Option (Nat × Option SitemapDoc)) :
    ∀ u ∈ get_sitemap_urls nl base_url allowed_domain robots fetchDoc,
      nl u = allowed_domain := by
  intro u hu
  simp only [get_sitemap_urls, List.mem_flatMap] at hu
  obtain ⟨sm, _, hu⟩ := hu
  unfold processCandidate at hu
  rcases hf : fetchDoc sm with _ | st
  · simp [hf] at hu
  · rw [hf] at hu
    simp only at hu
    split_ifs at hu with h200
    · rcases st with ⟨code, doc⟩
      rcases doc with _ | doc
      · simp at hu
      · rcases doc with children | locs
        · simp only [List.mem_flatMap] at hu
          obtain ⟨c, _, hu⟩ := hu
          rcases hf2 : fetchDoc c with _ | st2
          · simp [hf2] at hu
          · rw [hf2] at hu
            simp only at hu
            split_ifs at hu with h2
            · rcases st2 with ⟨code2, doc2⟩
              rcases doc2 with _ | doc2
              · simp at hu
              · rcases doc2 with ch2 | locs2
                · simp at hu
                · exact of_decide_eq_true (List.mem_filter.mp hu).2
            · simp at hu
        · exact of_decide_eq_true (List.mem_filter.mp hu).2
    · simp at hu

/-- Witness for C9 at a concrete two-level sitemap with a foreign-host loc. -/
theorem C9_witness :
    simpleNetloc "http://a.com/page1" = "a.com" :=
  C9_sitemap_host_filter simpleNetloc "http://a.com" "a.com" none
    (fun sm =>
      if sm = "http://a.com/sitemap.xml" then
        some (200, some (.index ["http://a.com/sub.xml"]))
      else if sm = "http://a.com/sub.xml" then
        some (200, some (.urlset ["http://a.com/page1", "http://evil.com/page2"]))
      else none)
    "http://a.com/page1" (by decide)

/-! ## Crawl engine: `extract_links` (src/tool.py lines 214-352)

The rendered pages' outgoing links are the finite association list `G`
(one entry per fetchable page: the list of anchor hrefs selected by the
active topology; a missing entry models a navigation failure, which the
code turns into zero outgoing links).  The robots oracle and
`urlparse(...).netloc` are function parameters as before.  The claims about
the crawl quantify over start URLs whose reachable link graph is finite,
which is exactly what a finite association list expresses. -/

structure CrawlState where
  queue : List (String × Nat)
  visited : List String
  found : List String
deriving DecidableEq, Repr

/-- Depth ceiling selection (src/tool.py line 272). -/
def depthLimit (topology : String) : Nat :=
  if topology = "hub_and_spoke" then 1 else 3

/-- Link normalization applied before enqueueing (lines 331-333) and, for the
query part, to the dequeued URL for the visited check (lines 281-283):
`link.split("#")[0]` then `split("?")[0]` when `ignore_queries` is set. -/
def normalizeLink (ignore_queries : Bool) (link : String) : String :=
  let l1 := stripAfter '#' link
  if ignore_queries then stripAfter '?' l1 else l1

/-- Per-link enqueue decision (lines 330-345): normalize, require an
`http(s)` URL, and apply the scope predicate against the start host. -/
def linkTarget (nl : String → String) (start_domain scope : String)
    (ignore_queries : Bool) (link : String) : Option String :=
  if strStartsWith (normalizeLink ignore_queries link) "http" then
    if scope = "subdomain" ∧ nl (normalizeLink ignore_queries link) = start_domain then
      some (normalizeLink ignore_queries link)
    else if scope = "domain" ∧
        strContains (nl (normalizeLink ignore_queries link)) start_domain then
      some (normalizeLink ignore_queries link)
    else none
  else none

/-- Visited-check normalization of the dequeued URL (lines 281-283): only the
query part is conditionally stripped; the fragment of a dequeued URL is left
alone (enqueued links were fragment-stripped, but the start URL is not). -/
def visitUrl (ignore_queries : Bool) (cu : String) : String :=
  if ignore_queries then stripAfter '?' cu else cu

/-- One iteration of the crawl loop body for a dequeued `(cu, cd)` entry
(lines 278-348): visited/depth skip, scope skip, robots skip, else mark
visited, add to found, and — only below the depth ceiling — enqueue the
page's filtered outgoing links at depth `cd + 1`. -/
def crawlStep (nl : String → String) (G : List (String × List String))
    (robots : String → Bool) (topology scope start_domain : String)
    (ignore_queries : Bool) (cu : String) (cd : Nat)
    (rest : List (String × Nat)) (v f : List String) : CrawlState :=
  if visitUrl ignore_queries cu ∈ v ∨ depthLimit topology < cd then ⟨rest, v, f⟩
  else if scope = "subdomain" ∧ nl cu ≠ start_domain then ⟨rest, v, f⟩
  else if scope = "domain" ∧ ¬ strContains (nl cu) start_domain then ⟨rest, v, f⟩
  else if ¬ robots cu then ⟨rest, v, f⟩
  else
    let v' := visitUrl ignore_queries cu :: v
    let f' := if cu ∈ f then f else cu :: f
    let newEntries :=
      if cd < depthLimit topology then
        match G.lookup cu with
        | none => []
        | some links =>
          (links.filterMap (linkTarget nl start_domain scope ignore_queries)).map
            (fun l => (l, cd + 1))
      else []
    ⟨rest ++ newEntries, v', f'⟩

/-- Upper bound on the out-degree of the finite link graph. -/
def outBound : List (String × List String) → Nat
  | [] => 0
  | p :: rest => max p.2.length (outBound rest)

theorem lookup_length_le (G : List (String × List String)) (u : String)
    (ls : List String) (h : G.lookup u = some ls) : ls.length ≤ outBound G := by
  induction G with
  | nil => simp [List.lookup] at h
  | cons p rest ih =>
    simp only [List.lookup] at h
    split at h
    · cases h
      simp [outBound]
    · exact le_trans (ih h) (by simp [outBound])

/-- Termination weight of one frontier entry: strictly dominates the total
weight of the at most `B` children it can enqueue one level deeper. -/
def entryWeight (B limit d : Nat) : Nat := (B + 1) ^ (limit + 1 - d)

/-- Termination measure of the frontier. -/
def qMeasure (B limit : Nat) (q : List (String × Nat)) : Nat :=
  (q.map (fun e => entryWeight B limit e.2)).sum

theorem qMeasure_append (B limit : Nat) (a b : List (String × Nat)) :
    qMeasure B limit (a ++ b) = qMeasure B limit a + qMeasure B limit b := by
  simp [qMeasure]

theorem qMeasure_cons (B limit : Nat) (u : String) (d : Nat)
    (q : List (String × Nat)) :
    qMeasure B limit ((u, d) :: q) = entryWeight B limit d + qMeasure B limit q := by
  simp [qMeasure]

theorem entryWeight_pos (B limit d : Nat) : 0 < entryWeight B limit d :=
  Nat.pos_pow_of_pos _ (Nat.succ_pos B)

theorem qMeasure_map_const (B limit d : Nat) (l : List String) :
    qMeasure B limit (l.map (fun x => (x, d))) = l.length * entryWeight B limit d := by
  induction l with
  | nil => simp [qMeasure]
  | cons x xs ih =>
    simp only [List.map_cons, qMeasure, List.sum_cons, List.length_cons] at ih ⊢
    rw [ih]
    ring

theorem qMeasure_children_lt (B limit cd : Nat) (hcd : cd < limit)
    (l : List String) (hl : l.length ≤ B) :
    qMeasure B limit (l.map (fun x => (x, cd + 1))) < entryWeight B limit cd := by
  rw [qMeasure_map_const]
  have h1 : limit + 1 - (cd + 1) = limit - cd := by omega
  have h2 : limit + 1 - cd = (limit - cd) + 1 := by omega
  unfold entryWeight
  rw [h1, h2, pow_succ]
  have hX : 0 < (B + 1) ^ (limit - cd) := Nat.pos_pow_of_pos _ (Nat.succ_pos B)
  calc l.length * (B + 1) ^ (limit - cd)
      ≤ B * (B + 1) ^ (limit - cd) := Nat.mul_le_mul_right _ hl
    _ < (B + 1) ^ (limit - cd) * (B + 1) := by nlinarith

theorem crawlStep_queue (nl : String → String) (G : List (String × List String))
    (robots : String → Bool) (topology scope start_domain : String)
    (ignore_queries : Bool) (cu : String) (cd : Nat)
    (rest : List (String × Nat)) (v f : List String) :
    (crawlStep nl G robots topology scope start_domain ignore_queries
        cu cd rest v f).queue = rest ∨
    (cd < depthLimit topology ∧ ∃ links, G.lookup cu = some links ∧
      (crawlStep nl G robots topology scope start_domain ignore_queries
          cu cd rest v f).queue =
        rest ++ (links.filterMap
          (linkTarget nl start_domain scope ignore_queries)).map
            (fun l => (l, cd + 1))) := by
  by_cases h1 : visitUrl ignore_queries cu ∈ v ∨ depthLimit topology < cd
  · left; simp [crawlStep, h1]
  by_cases h2 : scope = "subdomain" ∧ nl cu ≠ start_domain
  · left; simp [crawlStep, h1, h2]
  by_cases h3 : scope = "domain" ∧ strContains (nl cu) start_domain = false
  · left; simp [crawlStep, h1, h2, h3]
  by_cases h4 : robots cu = false
  · left; simp [crawlStep, h1, h2, h3, h4]
  by_cases h5 : cd < depthLimit topology
  · rcases hG : G.lookup cu with _ | links
    · left; simp [crawlStep, h1, h2, h3, h4, h5, hG]
    · right
      refine ⟨h5, links, rfl, ?_⟩
      simp [crawlStep, h1, h2, h3, h4, h5, hG]
  · left; simp [crawlStep, h1, h2, h3, h4, h5]

theorem crawlStep_measure (nl : String → String) (G : List (String × List String))
    (robots : String → Bool) (topology scope start_domain : String)
    (ignore_queries : Bool) (cu : String) (cd : Nat)
    (rest : List (String × Nat)) (v f : List String) :
    qMeasure (outBound G) (depthLimit topology)
        (crawlStep nl G robots topology scope start_domain ignore_queries
          cu cd rest v f).queue <
      qMeasure (outBound G) (depthLimit topology) ((cu, cd) :: rest) := by
  have hhead := qMeasure_cons (outBound G) (depthLimit topology) cu cd rest
  have hpos := entryWeight_pos (outBound G) (depthLimit topology) cd
  rcases crawlStep_queue nl G robots topology scope start_domain ignore_queries
      cu cd rest v f with hq | ⟨h5, links, hG, hq⟩
  · rw [hq, hhead]
    omega
  · rw [hq, qMeasure_append, hhead]
    have hlen : (links.filterMap
        (linkTarget nl start_domain scope ignore_queries)).length ≤ outBound G :=
      le_trans (List.length_filterMap_le _ _) (lookup_length_le G cu links hG)
    have hch := qMeasure_children_lt (outBound G) (depthLimit topology) cd h5
      (links.filterMap (linkTarget nl start_domain scope ignore_queries)) hlen
    omega

/-- The crawl loop (src/tool.py line 277): runs while the frontier is
non-empty and strictly fewer than `max_pages` URLs have been found.
Termination is by the exponential frontier measure: every iteration either
discards the head entry or replaces it by at most `outBound G` entries of
strictly smaller weight. -/
def crawlLoop (nl : String → String) (G : List (String × List String))
    (robots : String → Bool) (topology scope start_domain : String)
    (ignore_queries : Bool) (max_pages : Nat) (s : CrawlState) : CrawlState :=
  match hq : s.queue with
  | [] => s
  | (cu, cd) :: rest =>
    if s.found.length < max_pages then
      crawlLoop nl G robots topology scope start_domain ignore_queries max_pages
        (crawlStep nl G robots topology scope start_domain ignore_queries cu cd rest
          s.visited s.found)
    else s
termination_by qMeasure (outBound G) (depthLimit topology) s.queue
decreasing_by
  rw [hq]
  exact crawlStep_measure nl G robots topology scope start_domain ignore_queries
    cu cd rest s.visited s.found

/-- Shallow embedding of `extract_links` (src/tool.py lines 214-352): the
start host is captured once from the start URL, the frontier starts as
`[(url, 0)]`, and the accumulated found set is returned. -/
def extract_links (nl : String → String) (G : List (String × List String))
    (robots : String → Bool) (url topology scope : String)
    (ignore_queries : Bool) (max_pages : Nat) : List String :=
  (crawlLoop nl G robots topology scope (nl url) ignore_queries max_pages
    ⟨[(url, 0)], [], []⟩).found

theorem crawlLoop_nil (nl : String → String) (G : List (String × List String))
    (robots : String → Bool) (topology scope start_domain : String)
    (iq : Bool) (mp : Nat) (s : CrawlState) (h : s.queue = []) :
    crawlLoop nl G robots topology scope start_domain iq mp s = s := by
  rw [crawlLoop.eq_def, h]

theorem crawlLoop_cons_lt (nl : String → String) (G : List (String × List String))
    (robots : String → Bool) (topology scope start_domain : String)
    (iq : Bool) (mp : Nat) (s : CrawlState) (cu : String) (cd : Nat)
    (rest : List (String × Nat)) (h : s.queue = (cu, cd) :: rest)
    (hlt : s.found.length < mp) :
    crawlLoop nl G robots topology scope start_domain iq mp s =
      crawlLoop nl G robots topology scope start_domain iq mp
        (crawlStep nl G robots topology scope start_domain iq cu cd rest
          s.visited s.found) := by
  rw [crawlLoop.eq_def, h]
  simp [hlt]

theorem crawlLoop_cons_ge (nl : String → String) (G : List (String × List String))
    (robots : String → Bool) (topology scope start_domain : String)
    (iq : Bool) (mp : Nat) (s : CrawlState) (cu : String) (cd : Nat)
    (rest : List (String × Nat)) (h : s.queue = (cu, cd) :: rest)
    (hge : ¬ s.found.length < mp) :
    crawlLoop nl G robots topology scope start_domain iq mp s = s := by
  rw [crawlLoop.eq_def, h]
  simp [hge]

/-- Full characterization of one loop body iteration: either the entry is
skipped (visited/depth/scope/robots), or it is accepted — visited and found
grow as sets and the appended frontier entries all sit at depth `cd + 1` and
carry a normalized, scope-checked link. -/
theorem crawlStep_eq (nl : String → String) (G : List (String × List String))
    (robots : String → Bool) (topology scope start_domain : String)
    (ignore_queries : Bool) (cu : String) (cd : Nat)
    (rest : List (String × Nat)) (v f : List String) :
    crawlStep nl G robots topology scope start_domain ignore_queries
        cu cd rest v f = CrawlState.mk rest v f ∨
    ∃ newE, crawlStep nl G robots topology scope start_domain ignore_queries
        cu cd rest v f =
      CrawlState.mk (rest ++ newE) (visitUrl ignore_queries cu :: v)
        (if cu ∈ f then f else cu :: f) ∧
      ∀ e ∈ newE, e.2 = cd + 1 ∧
        ∃ link, linkTarget nl start_domain scope ignore_queries link = some e.1 := by
  by_cases h1 : visitUrl ignore_queries cu ∈ v ∨ depthLimit topology < cd
  · left; simp [crawlStep, h1]
  by_cases h2 : scope = "subdomain" ∧ nl cu ≠ start_domain
  · left; simp [crawlStep, h1, h2]
  by_cases h3 : scope = "domain" ∧ strContains (nl cu) start_domain = false
  · left; simp [crawlStep, h1, h2, h3]
  by_cases h4 : robots cu = false
  · left; simp [crawlStep, h1, h2, h3, h4]
  right
  by_cases h5 : cd < depthLimit topology
  · rcases hG : G.lookup cu with _ | links
    · refine ⟨[], by simp [crawlStep, h1, h2, h3, h4, h5, hG], by simp⟩
    · refine ⟨(links.filterMap
          (linkTarget nl start_domain scope ignore_queries)).map
            (fun l => (l, cd + 1)),
        by simp [crawlStep, h1, h2, h3, h4, h5, hG], ?_⟩
      intro e he
      obtain ⟨l, hl, rfl⟩ := List.mem_map.mp he
      obtain ⟨link, _, hlink⟩ := List.mem_filterMap.mp hl
      exact ⟨rfl, link, hlink⟩
  · exact ⟨[], by simp [crawlStep, h1, h2, h3, h4, h5], by simp⟩

theorem crawlStep_found_le (nl : String → String) (G : List (String × List String))
    (robots : String → Bool) (topology scope start_domain : String)
    (ignore_queries : Bool) (cu : String) (cd : Nat)
    (rest : List (String × Nat)) (v f : List String) :
    (crawlStep nl G robots topology scope start_domain ignore_queries
        cu cd rest v f).found.length ≤ f.length + 1 := by
  rcases crawlStep_eq nl G robots topology scope start_domain ignore_queries
      cu cd rest v f with h | ⟨newE, h, _⟩
  · rw [h]
    show f.length ≤ f.length + 1
    omega
  · rw [h]
    by_cases hf : cu ∈ f <;> simp [hf]

theorem crawlLoop_found_le (nl : String → String) (G : List (String × List String))
    (robots : String → Bool) (topology scope start_domain : String)
    (iq : Bool) (mp : Nat) :
    ∀ s : CrawlState, s.found.length ≤ mp →
      (crawlLoop nl G robots topology scope start_domain iq mp s).found.length ≤ mp := by
  intro s
  induction s using crawlLoop.induct nl G robots topology scope start_domain iq mp with
  | case1 x hx =>
    intro hle
    rw [crawlLoop_nil nl G robots topology scope start_domain iq mp x hx]
    exact hle
  | case2 x cu cd rest hx hlt ih =>
    intro _
    rw [crawlLoop_cons_lt nl G robots topology scope start_domain iq mp x cu cd rest
      hx hlt]
    apply ih
    have := crawlStep_found_le nl G robots topology scope start_domain iq cu cd rest
      x.visited x.found
    omega
  | case3 x cu cd rest hx hge =>
    intro hle
    rw [crawlLoop_cons_ge nl G robots topology scope start_domain iq mp x cu cd rest
      hx hge]
    exact hle

/-- C2: for every finite link graph, oracle set, topology, scope,
`ignore_queries` setting and `max_pages`, the crawl (a total function by the
frontier measure) returns at most `max_pages` found URLs, and the loop body
runs only while the frontier is non-empty and strictly fewer than
`max_pages` URLs have been found — otherwise the loop returns its state
unchanged. -/
theorem C2_crawl_terminates_bounded (nl : String → String)
    (G : List (String × List String)) (robots : String → Bool)
    (url topology scope : String) (iq : Bool) (mp : Nat) :
    (extract_links nl G robots url topology scope iq mp).length ≤ mp ∧
    (∀ s : CrawlState, s.queue = [] ∨ mp ≤ s.found.length →
      crawlLoop nl G robots topology scope (nl url) iq mp s = s) := by
  constructor
  · exact crawlLoop_found_le nl G robots topology scope (nl url) iq mp
      ⟨[(url, 0)], [], []⟩ (by simp)
  · intro s hs
    rcases hq : s.queue with _ | ⟨⟨cu, cd⟩, rest⟩
    · exact crawlLoop_nil nl G robots topology scope (nl url) iq mp s hq
    · rcases hs with hs | hs
      · rw [hs] at hq; cases hq
      · exact crawlLoop_cons_ge nl G robots topology scope (nl url) iq mp s cu cd
          rest hq (by omega)

/-- Witness for C2: the loop guard leaves an exhausted state untouched, and a
tiny concrete crawl respects its page limit. -/
theorem C2_witness :
    crawlLoop simpleNetloc [] (fun _ => true) "mesh" "subdomain" "a.com" true 5
      ⟨[], ["x"], ["x"]⟩ = ⟨[], ["x"], ["x"]⟩ :=
  (C2_crawl_terminates_bounded simpleNetloc [] (fun _ => true) "http://a.com"
    "mesh" "subdomain" true 5).2 ⟨[], ["x"], ["x"]⟩ (Or.inl rfl)

/-- C3: the depth ceiling is 1 for `hub_and_spoke` and 3 for every other
topology, and a dequeued entry contributes new frontier entries only when its
depth is strictly below the ceiling, all of them at depth `cd + 1`; hence a
`hub_and_spoke` crawl only ever enqueues depth-1 entries and never a depth-2
one. -/
theorem C3_depth_ceiling :
    depthLimit "hub_and_spoke" = 1 ∧
    (∀ t, t ≠ "hub_and_spoke" → depthLimit t = 3) ∧
    (∀ (nl : String → String) (G : List (String × List String))
        (robots : String → Bool) (topology scope start_domain : String)
        (iq : Bool) (cu : String) (cd : Nat) (rest : List (String × Nat))
        (v f : List String),
      ∀ e ∈ (crawlStep nl G robots topology scope start_domain iq
          cu cd rest v f).queue,
        e ∈ rest ∨ (cd < depthLimit topology ∧ e.2 = cd + 1)) := by
  refine ⟨rfl, fun t ht => by simp [depthLimit, ht], ?_⟩
  intro nl G robots topology scope start_domain iq cu cd rest v f e he
  rcases crawlStep_queue nl G robots topology scope start_domain iq cu cd rest v f
      with hq | ⟨h5, links, _, hq⟩
  · rw [hq] at he
    exact Or.inl he
  · rw [hq] at he
    rcases List.mem_append.mp he with he | he
    · exact Or.inl he
    · right
      obtain ⟨l, _, rfl⟩ := List.mem_map.mp he
      exact ⟨h5, rfl⟩

/-- Witness for C3: the mesh ceiling evaluates to 3. -/
theorem C3_witness : depthLimit "mesh" = 3 :=
  C3_depth_ceiling.2.1 "mesh" (by decide)

theorem takeWhile_idem (p : Char → Bool) (l : List Char) :
    (l.takeWhile p).takeWhile p = l.takeWhile p := by
  induction l with
  | nil => simp
  | cons a t ih =>
    by_cases h : p a <;> simp [List.takeWhile_cons, h, ih]

theorem stripAfter_idem (c : Char) (s : String) :
    stripAfter c (stripAfter c s) = stripAfter c s :=
  congrArg String.mk (takeWhile_idem _ _)

theorem not_mem_stripAfter (c : Char) (s : String) : c ∉ (stripAfter c s).data := by
  intro h
  have := List.mem_takeWhile_imp h
  simp at this

theorem mem_of_mem_stripAfter {c x : Char} {s : String}
    (h : x ∈ (stripAfter c s).data) : x ∈ s.data :=
  (List.takeWhile_sublist _).subset h

theorem takeWhile_ne_eq_self (c : Char) (l : List Char) (h : c ∉ l) :
    l.takeWhile (fun x => x ≠ c) = l := by
  induction l with
  | nil => simp
  | cons a t ih =>
    have ha : a ≠ c := by
      rintro rfl
      exact h (List.mem_cons_self _ _)
    have ht : c ∉ t := fun hc => h (List.mem_cons_of_mem _ hc)
    rw [List.takeWhile_cons, if_pos (by simpa using ha), ih ht]

theorem stripAfter_of_not_mem (c : Char) (s : String) (h : c ∉ s.data) :
    stripAfter c s = s := by
  rcases s with ⟨l⟩
  exact congrArg String.mk (takeWhile_ne_eq_self c l h)

theorem normalizeLink_no_frag (iq : Bool) (s : String) :
    '#' ∉ (normalizeLink iq s).data := by
  cases iq with
  | false => exact not_mem_stripAfter '#' s
  | true =>
    intro h
    exact not_mem_stripAfter '#' s (mem_of_mem_stripAfter h)

theorem normalizeLink_no_query (s : String) : '?' ∉ (normalizeLink true s).data :=
  not_mem_stripAfter '?' _

theorem normalizeLink_false (s : String) : normalizeLink false s = stripAfter '#' s :=
  rfl

theorem normalizeLink_idem (iq : Bool) (s : String) :
    normalizeLink iq (normalizeLink iq s) = normalizeLink iq s := by
  cases iq with
  | false => exact stripAfter_idem '#' s
  | true =>
    show stripAfter '?' (stripAfter '#' (stripAfter '?' (stripAfter '#' s))) =
      stripAfter '?' (stripAfter '#' s)
    rw [stripAfter_of_not_mem '#' _
      (fun h => not_mem_stripAfter '#' s (mem_of_mem_stripAfter h)), stripAfter_idem]

theorem visitUrl_fixed (iq : Bool) (cu : String) (h : normalizeLink iq cu = cu) :
    visitUrl iq cu = cu := by
  cases iq with
  | false => rfl
  | true =>
    show stripAfter '?' cu = cu
    apply stripAfter_of_not_mem
    rw [← h]
    exact normalizeLink_no_query cu

theorem linkTarget_norm {nl : String → String} {start_domain scope : String}
    {iq : Bool} {link l : String}
    (h : linkTarget nl start_domain scope iq link = some l) :
    normalizeLink iq l = l := by
  unfold linkTarget at h
  split_ifs at h <;>
    (injection h with h'
     rw [← h']
     exact normalizeLink_idem iq link)

/-- Invariant: every URL in the frontier, visited set and found set is a
fixed point of the link normalization. -/
def NormInv (iq : Bool) (s : CrawlState) : Prop :=
  (∀ e ∈ s.queue, normalizeLink iq e.1 = e.1) ∧
  (∀ u ∈ s.visited, normalizeLink iq u = u) ∧
  (∀ u ∈ s.found, normalizeLink iq u = u)

theorem crawlStep_norm (nl : String → String) (G : List (String × List String))
    (robots : String → Bool) (topology scope start_domain : String)
    (iq : Bool) (cu : String) (cd : Nat) (rest : List (String × Nat))
    (v f : List String) (hcu : normalizeLink iq cu = cu)
    (hrest : ∀ e ∈ rest, normalizeLink iq e.1 = e.1)
    (hv : ∀ u ∈ v, normalizeLink iq u = u)
    (hf : ∀ u ∈ f, normalizeLink iq u = u) :
    NormInv iq (crawlStep nl G robots topology scope start_domain iq
      cu cd rest v f) := by
  rcases crawlStep_eq nl G robots topology scope start_domain iq cu cd rest v f
      with h | ⟨newE, h, hnew⟩
  · rw [h]
    exact ⟨hrest, hv, hf⟩
  · rw [h]
    refine ⟨?_, ?_, ?_⟩
    · intro e he
      rcases List.mem_append.mp he with he | he
      · exact hrest e he
      · obtain ⟨_, link, hlink⟩ := hnew e he
        exact linkTarget_norm hlink
    · intro u hu
      rcases List.mem_cons.mp hu with rfl | hu
      · rw [visitUrl_fixed iq cu hcu]
        exact hcu
      · exact hv u hu
    · intro u hu
      by_cases hcf : cu ∈ f
      · rw [if_pos hcf] at hu
        exact hf u hu
      · rw [if_neg hcf] at hu
        rcases List.mem_cons.mp hu with rfl | hu
        · exact hcu
        · exact hf u hu

theorem crawlLoop_norm (nl : String → String) (G : List (String × List String))
    (robots : String → Bool) (topology scope start_domain : String)
    (iq : Bool) (mp : Nat) :
    ∀ s : CrawlState, NormInv iq s →
      NormInv iq (crawlLoop nl G robots topology scope start_domain iq mp s) := by
  intro s
  induction s using crawlLoop.induct nl G robots topology scope start_domain iq mp with
  | case1 x hx =>
    intro hinv
    rw [crawlLoop_nil nl G robots topology scope start_domain iq mp x hx]
    exact hinv
  | case2 x cu cd rest hx hlt ih =>
    intro hinv
    rw [crawlLoop_cons_lt nl G robots topology scope start_domain iq mp x cu cd rest
      hx hlt]
    apply ih
    obtain ⟨hq, hv, hf⟩ := hinv
    have hcu : normalizeLink iq cu = cu :=
      hq (cu, cd) (by rw [hx]; exact List.mem_cons_self _ _)
    exact crawlStep_norm nl G robots topology scope start_domain iq cu cd rest
      x.visited x.found hcu
      (fun e he => hq e (by rw [hx]; exact List.mem_cons_of_mem _ he)) hv hf
  | case3 x cu cd rest hx hge =>
    intro hinv
    rw [crawlLoop_cons_ge nl G robots topology scope start_domain iq mp x cu cd rest
      hx hge]
    exact hinv

/-- C7 counterexample: a start URL carrying a fragment is recorded in the
found set as given — `found_urls.add(current_url)` (line 300) receives the
raw dequeued URL and only enqueued links pass through the fragment strip —
so the found set is not fragment-free, refuting the claim's final part. -/
theorem C7_counterexample :
    extract_links simpleNetloc [] (fun _ => true) "http://a.com/p#f" "mesh"
        "subdomain" true 5 = ["http://a.com/p#f"] ∧
    '#' ∈ "http://a.com/p#f".data := by
  constructor
  · simp [extract_links, crawlLoop, crawlStep, visitUrl, depthLimit]
  · decide

/-- C7 (amended): the link normalization of `extract_links` (fragment strip
always, query strip iff `ignore_queries`) is idempotent, leaves no `#`, and
removes `?` exactly when the flag is set; and whenever the start URL is
itself in normalized form, every URL recorded in the visited and found sets
is in normalized form.  (The start URL itself is recorded as given: only its
query part is stripped for the visited check, so a fragment-carrying start
URL enters visited and found unnormalized.) -/
theorem C7_amended_normalization :
    (∀ (iq : Bool) (s : String),
      normalizeLink iq (normalizeLink iq s) = normalizeLink iq s) ∧
    (∀ (iq : Bool) (s : String), '#' ∉ (normalizeLink iq s).data) ∧
    (∀ s : String, '?' ∉ (normalizeLink true s).data) ∧
    (∀ s : String, normalizeLink false s = stripAfter '#' s) ∧
    (∀ (nl : String → String) (G : List (String × List String))
        (robots : String → Bool) (url topology scope : String) (iq : Bool)
        (mp : Nat), normalizeLink iq url = url →
      (∀ u ∈ extract_links nl G robots url topology scope iq mp,
        normalizeLink iq u = u) ∧
      (∀ u ∈ (crawlLoop nl G robots topology scope (nl url) iq mp
          ⟨[(url, 0)], [], []⟩).visited, normalizeLink iq u = u)) := by
  refine ⟨normalizeLink_idem, normalizeLink_no_frag, normalizeLink_no_query,
    normalizeLink_false, ?_⟩
  intro nl G robots url topology scope iq mp hurl
  have hinit : NormInv iq ⟨[(url, 0)], [], []⟩ := by
    refine ⟨?_, by simp, by simp⟩
    intro e he
    simp only [List.mem_singleton] at he
    rw [he]
    exact hurl
  have hfin := crawlLoop_norm nl G robots topology scope (nl url) iq mp
    ⟨[(url, 0)], [], []⟩ hinit
  exact ⟨fun u hu => hfin.2.2 u hu, fun u hu => hfin.2.1 u hu⟩

/-- Witness for the amended C7 on a concrete fragment-free start URL. -/
theorem C7_witness :
    normalizeLink true "http://a.com/p" = "http://a.com/p" :=
  (C7_amended_normalization.2.2.2.2 simpleNetloc [] (fun _ => true)
      "http://a.com/p" "mesh" "subdomain" true 5 (by decide)).1
    "http://a.com/p"
    (by simp [extract_links, crawlLoop, crawlStep, visitUrl, depthLimit])
